import Mathlib

/-!
Verification of the stochastic exam-timetabling solver (`cw1_bayesian.py`).

The Python source is embedded shallowly:
* `Instance` mirrors the `Instance` class (counts are `ℤ` since the Python
  code defensively checks them for negativity; the parser only ever produces
  non-negative values).
* `studentsByExam` / `examsByStudent` mirror the incidence-set construction
  (Python `set.add` = append-if-absent; iteration order of the resulting
  small-int sets is the insertion order, and every use below is
  order-insensitive in value).
* `candidates` mirrors the nested candidate-generation loops.
* `cost` mirrors the seven-class weighted violation cost, term by term.
* The Metropolis loop is embedded as explicit state passing (`SState`,
  `applyMove`, `step`, `loopK`) over an abstract pseudo-random oracle `Rng`
  whose draws are consumed in exactly the order the Python code consumes
  them; the float temperature/exponential are modelled over `ℝ`.
-/

namespace CW1

/-- `DEFAULT_SLOTS_PER_DAY` from the source. -/
def SLOTS_PER_DAY : ℕ := 4

/-- `DEFAULT_MIN_GAP` from the source (compared against `abs` of an integer
slot difference, hence `ℤ`). -/
def MIN_GAP : ℤ := 1

/-- `DEFAULT_TURNAROUND_GAP` from the source. -/
def TURNAROUND_GAP : ℤ := 1

/-- `DEFAULT_LARGE_EXAM_THRESHOLD` from the source (compared against exam
sizes, which are natural numbers). -/
def LARGE_EXAM_THRESHOLD : ℕ := 10

/-- `DEFAULT_EXAMINER_CAPACITY` from the source. -/
def EXAMINER_CAPACITY : ℤ := 10

/-- Penalty weight `W_CLASH`. -/
def W_CLASH : ℤ := 10

/-- Penalty weight `W_MIN_GAP`. -/
def W_MIN_GAP : ℤ := 6

/-- Penalty weight `W_DAY_CAP`. -/
def W_DAY_CAP : ℤ := 8

/-- Penalty weight `W_ROOM_DOUBLE`. -/
def W_ROOM_DOUBLE : ℤ := 10

/-- Penalty weight `W_TURNAROUND`. -/
def W_TURNAROUND : ℤ := 6

/-- Penalty weight `W_LAST_SLOT`. -/
def W_LAST_SLOT : ℤ := 12

/-- Penalty weight `W_INVIG`. -/
def W_INVIG : ℤ := 8

/-- The `Instance` class of the source: five counts, room capacities and the
raw exam/student incidence pairs. -/
structure Instance where
  number_of_students : ℤ
  number_of_exams : ℤ
  number_of_slots : ℤ
  number_of_rooms : ℤ
  room_capacities : List ℤ
  exams_to_students : List (ℤ × ℤ)

/-- Python `set.add`: append the element iff it is not already present. -/
def insertAbsent (l : List ℕ) (x : ℕ) : List ℕ :=
  if x ∈ l then l else l ++ [x]

/-- The body of the incidence-building loop, restricted to the set
`students_by_exam[e]`: a pair `(e', s)` contributes `s` iff it is in range
and `e' = e`. -/
def sbeStep (E S : ℤ) (e : ℕ) (acc : List ℕ) (p : ℤ × ℤ) : List ℕ :=
  if 0 ≤ p.1 ∧ p.1 < E ∧ 0 ≤ p.2 ∧ p.2 < S ∧ p.1.toNat = e then
    insertAbsent acc p.2.toNat
  else acc

/-- `students_by_exam[e]` of the source: the set of in-range students taking
exam `e`, in insertion order. -/
def studentsByExam (E S : ℤ) (pairs : List (ℤ × ℤ)) (e : ℕ) : List ℕ :=
  pairs.foldl (sbeStep E S e) []

/-- The body of the incidence-building loop, restricted to the set
`exams_by_student[s]`. -/
def ebsStep (E S : ℤ) (s : ℕ) (acc : List ℕ) (p : ℤ × ℤ) : List ℕ :=
  if 0 ≤ p.1 ∧ p.1 < E ∧ 0 ≤ p.2 ∧ p.2 < S ∧ p.2.toNat = s then
    insertAbsent acc p.1.toNat
  else acc

/-- `exams_by_student[s]` of the source: the set of in-range exams taken by
student `s`, in insertion order. -/
def examsByStudent (E S : ℤ) (pairs : List (ℤ × ℤ)) (s : ℕ) : List ℕ :=
  pairs.foldl (ebsStep E S s) []

/-- `exam_size[e] = len(students_by_exam[e])`. -/
def examSize (E S : ℤ) (pairs : List (ℤ × ℤ)) (e : ℕ) : ℕ :=
  (studentsByExam E S pairs e).length

/-- `last_slots`: the slots `t < T` with `t % SLOTS_PER_DAY == SLOTS_PER_DAY - 1`. -/
def lastSlots (Tn : ℕ) : List ℕ :=
  (List.range Tn).filter (fun t => decide (t % SLOTS_PER_DAY = SLOTS_PER_DAY - 1))

/-- `examiner_demand[e]`: 3 for a large exam, else 2. -/
def examinerDemand (sz : ℕ → ℕ) (e : ℕ) : ℤ :=
  if LARGE_EXAM_THRESHOLD ≤ sz e then 3 else 2

/-- The candidate `(room, slot)` pairs of one exam of size `sz`: room-major,
then slot order; a room is skipped entirely when the exam does not fit, and a
last-slot-of-day is skipped when the exam is large.  (For `t < Tn`,
membership of `t` in `last_slots` is exactly `t % SLOTS_PER_DAY = SLOTS_PER_DAY - 1`.) -/
def candidates (Rn Tn : ℕ) (caps : List ℤ) (sz : ℕ) : List (ℕ × ℕ) :=
  ((List.range Rn).map (fun r =>
    if (sz : ℤ) > caps.getD r 0 then []
    else ((List.range Tn).filter
        (fun t => decide ¬(LARGE_EXAM_THRESHOLD ≤ sz ∧
          t % SLOTS_PER_DAY = SLOTS_PER_DAY - 1))).map (fun t => (r, t)))).flatten

/-- Sum of `g` over all index pairs `i < j` of a list, in the order of the
source's nested `for i … for j in range(i+1, …)` loops. -/
def pairSum (g : ℕ → ℕ → ℤ) : List ℕ → ℤ
  | [] => 0
  | x :: xs => (xs.map (g x)).sum + pairSum g xs

/-- The per-pair student penalty of the cost loop: `W_CLASH` for a same-slot
pair plus `W_MIN_GAP` for a pair whose slot difference has magnitude at most
`MIN_GAP`. -/
def pairPenalty (t1 t2 : ℕ) : ℤ :=
  (if t1 = t2 then W_CLASH else 0) +
    (if |(t1 : ℤ) - (t2 : ℤ)| ≤ MIN_GAP then W_MIN_GAP else 0)

/-- The excess-count loop `for cnt in occ.values(): if cnt > k: total += w * (cnt - k)`
of the source: the Python dict `occ` counts the occurrences of each key in a
list, and its values are the counts of the distinct (deduplicated) keys. -/
def countTerm {α : Type} [DecidableEq α] (w : ℤ) (k : ℕ) (l : List α) : ℤ :=
  (l.dedup.map (fun p =>
    if k < l.count p then w * ((l.count p : ℤ) - (k : ℤ)) else 0)).sum

/-- Room double-booking term: for each distinct occupied `(room, slot)` pair
occurring `cnt > 1` times, `W_ROOM_DOUBLE * (cnt - 1)`. -/
def roomDoubleTerm (En : ℕ) (ra ta : ℕ → ℕ) : ℤ :=
  countTerm W_ROOM_DOUBLE 1 ((List.range En).map (fun e => (ra e, ta e)))

/-- Daily-overload term for one student's exam set: for each day holding
`c > 2` of the student's exams, `W_DAY_CAP * (c - 2)`. -/
def dayTerm (ta : ℕ → ℕ) (exams : List ℕ) : ℤ :=
  countTerm W_DAY_CAP 2 (exams.map (fun e => ta e / SLOTS_PER_DAY))

/-- Student term: same-slot clash, minimum gap and daily overload, summed
over all students. -/
def studentTerm (Sn : ℕ) (ebs : ℕ → List ℕ) (ta : ℕ → ℕ) : ℤ :=
  ((List.range Sn).map (fun s =>
    pairSum (fun e1 e2 => pairPenalty (ta e1) (ta e2)) (ebs s) + dayTerm ta (ebs s))).sum

/-- Adjacent-pair turnaround penalty of one (sorted) slot list. -/
def adjPen (l : List ℕ) : ℤ :=
  ((l.zip l.tail).map (fun p =>
    if |(p.2 : ℤ) - (p.1 : ℤ)| ≤ TURNAROUND_GAP then W_TURNAROUND else 0)).sum

/-- The slots used in room `r`, in exam order. -/
def roomTimes (En : ℕ) (ra ta : ℕ → ℕ) (r : ℕ) : List ℕ :=
  (((List.range En).filter (fun e => ra e == r)).map ta)

/-- Turnaround term: per room, sort the used slots and penalise adjacent
gaps of magnitude at most `TURNAROUND_GAP`. -/
def turnaroundTerm (En Rn : ℕ) (ra ta : ℕ → ℕ) : ℤ :=
  ((List.range Rn).map (fun r =>
    adjPen (List.insertionSort (· ≤ ·) (roomTimes En ra ta r)))).sum

/-- Large-exam last-slot term. -/
def largeTerm (En Tn : ℕ) (sz : ℕ → ℕ) (ta : ℕ → ℕ) : ℤ :=
  ((List.range En).map (fun e =>
    if LARGE_EXAM_THRESHOLD ≤ sz e ∧ ta e ∈ lastSlots Tn then W_LAST_SLOT else 0)).sum

/-- Total invigilator demand of slot `t`. -/
def slotDemand (En : ℕ) (sz : ℕ → ℕ) (ta : ℕ → ℕ) (t : ℕ) : ℤ :=
  (((List.range En).filter (fun e => ta e == t)).map (examinerDemand sz)).sum

/-- Invigilator overcapacity term. -/
def invigTerm (En Tn : ℕ) (sz : ℕ → ℕ) (ta : ℕ → ℕ) : ℤ :=
  ((List.range Tn).map (fun t =>
    if EXAMINER_CAPACITY < slotDemand En sz ta t then
      W_INVIG * (slotDemand En sz ta t - EXAMINER_CAPACITY)
    else 0)).sum

/-- The `cost` function of the source: the sum of the room double-booking,
student (clash / minimum-gap / daily-overload), room-turnaround, large-exam
last-slot and invigilator-overcapacity terms, accumulated in source order. -/
def cost (En Rn Tn Sn : ℕ) (ebs : ℕ → List ℕ) (sz : ℕ → ℕ) (ra ta : ℕ → ℕ) : ℤ :=
  roomDoubleTerm En ra ta + studentTerm Sn ebs ta + turnaroundTerm En Rn ra ta +
    largeTerm En Tn sz ta + invigTerm En Tn sz ta

/-- The data `solve` derives from an instance before searching. -/
structure Derived where
  En : ℕ
  Rn : ℕ
  Tn : ℕ
  Sn : ℕ
  caps : List ℤ
  ebs : ℕ → List ℕ
  sz : ℕ → ℕ

/-- Candidate list of exam `e` under derived data `D`. -/
def Derived.cands (D : Derived) (e : ℕ) : List (ℕ × ℕ) :=
  candidates D.Rn D.Tn D.caps (D.sz e)

/-- Cost of an assignment under derived data `D`. -/
def Derived.cost (D : Derived) (ra ta : ℕ → ℕ) : ℤ :=
  CW1.cost D.En D.Rn D.Tn D.Sn D.ebs D.sz ra ta

/-- Derive incidence data, exam sizes and dimensions from an instance, as
`solve` does after its sanity checks. -/
def ofInstance (inst : Instance) : Derived where
  En := inst.number_of_exams.toNat
  Rn := inst.number_of_rooms.toNat
  Tn := inst.number_of_slots.toNat
  Sn := inst.number_of_students.toNat
  caps := inst.room_capacities
  ebs := examsByStudent inst.number_of_exams inst.number_of_students inst.exams_to_students
  sz := examSize inst.number_of_exams inst.number_of_students inst.exams_to_students

/-- Abstract pseudo-random oracle modelling `random.Random(42)`: a state of
type `σ` plus the three draw operations the solver uses, each returning the
drawn value and the advanced state.  `choice n` draws an index for a
`random.choice` from a sequence of length `n`. -/
structure Rng (σ : Type) where
  randrange : ℕ → σ → ℕ × σ
  choice : ℕ → σ → ℕ × σ
  rand : σ → ℝ × σ

/-- A valid oracle returns in-range values, as Python's `Random` does. -/
def Rng.Valid {σ : Type} (rg : Rng σ) : Prop :=
  (∀ n s, 0 < n → (rg.randrange n s).1 < n) ∧ ∀ n s, 0 < n → (rg.choice n s).1 < n

/-- The mutable search state of one `solve` invocation: current assignment,
best assignment, best cost, the oracle state, and the trace of the best cost
after each executed loop iteration. -/
structure SState (σ : Type) where
  roomA : ℕ → ℕ
  timeA : ℕ → ℕ
  bestR : ℕ → ℕ
  bestT : ℕ → ℕ
  bestCost : ℤ
  rng : σ
  traj : List ℤ

/-- `max_iter = 20000 if E > 0 else 0`. -/
def maxIter (En : ℕ) : ℕ := if 0 < En then 20000 else 0

/-- The annealing temperature of iteration `it`:
`T_start * (T_end / T_start) ** (it / max_iter)` with `T_start = 3.0`,
`T_end = 0.01`; the loop only runs when `max_iter = 20000`. -/
noncomputable def temp (it : ℕ) : ℝ :=
  (3.0 : ℝ) * Real.rpow (0.01 / 3.0) ((it : ℝ) / (20000 : ℝ))

/-- The tail of one loop iteration, after the exam `e`, the proposed
candidate `c` and the advanced oracle state `σ2` have been drawn: skip a
no-op proposal, otherwise apply the move, recompute the cost, accept an
improvement over the best cost, and otherwise keep the move only when a
uniform draw falls below the Metropolis weight against the best cost. -/
noncomputable def applyMove {σ : Type} (D : Derived) (rg : Rng σ) (it e : ℕ)
    (c : ℕ × ℕ) (s2 : σ) (s : SState σ) : SState σ :=
  if c = (s.roomA e, s.timeA e) then
    { s with rng := s2, traj := s.traj ++ [s.bestCost] }
  else if D.cost (Function.update s.roomA e c.1) (Function.update s.timeA e c.2)
      < s.bestCost then
    { roomA := Function.update s.roomA e c.1,
      timeA := Function.update s.timeA e c.2,
      bestR := Function.update s.roomA e c.1,
      bestT := Function.update s.timeA e c.2,
      bestCost := D.cost (Function.update s.roomA e c.1) (Function.update s.timeA e c.2),
      rng := s2,
      traj := s.traj ++
        [D.cost (Function.update s.roomA e c.1) (Function.update s.timeA e c.2)] }
  else if (rg.rand s2).1 <
      Real.exp (-((D.cost (Function.update s.roomA e c.1)
            (Function.update s.timeA e c.2) : ℝ) - (s.bestCost : ℝ)) /
          max (temp it) (1e-6)) then
    { s with roomA := Function.update s.roomA e c.1,
             timeA := Function.update s.timeA e c.2,
             rng := (rg.rand s2).2, traj := s.traj ++ [s.bestCost] }
  else
    { s with rng := (rg.rand s2).2, traj := s.traj ++ [s.bestCost] }

/-- One iteration of the annealing loop: stop (no-op) once the best cost is
zero, otherwise draw an exam (`randrange`) and then a candidate (`choice`)
and run `applyMove`. -/
noncomputable def step {σ : Type} (D : Derived) (rg : Rng σ) (it : ℕ)
    (s : SState σ) : SState σ :=
  if s.bestCost = 0 then s
  else
    applyMove D rg it (rg.randrange D.En s.rng).1
      ((D.cands (rg.randrange D.En s.rng).1).getD
        (rg.choice (D.cands (rg.randrange D.En s.rng).1).length
          (rg.randrange D.En s.rng).2).1 (0, 0))
      (rg.choice (D.cands (rg.randrange D.En s.rng).1).length
        (rg.randrange D.En s.rng).2).2 s

/-- The first `k` iterations of the annealing loop. -/
noncomputable def loopK {σ : Type} (D : Derived) (rg : Rng σ) :
    ℕ → SState σ → SState σ
  | 0, s => s
  | k + 1, s => step D rg k (loopK D rg k s)

/-- The random initial assignment: for each exam `0, …, k-1` in order, draw a
uniformly random candidate.  Returns the two assignment maps and the
advanced oracle state. -/
def initAssn {σ : Type} (D : Derived) (rg : Rng σ) :
    ℕ → σ → (ℕ → ℕ) × (ℕ → ℕ) × σ
  | 0, s => (fun _ => 0, fun _ => 0, s)
  | k + 1, s =>
    let ih := initAssn D rg k s
    let p := rg.choice (D.cands k).length ih.2.2
    let c := (D.cands k).getD p.1 (0, 0)
    (Function.update ih.1 k c.1, Function.update ih.2.1 k c.2, p.2)

/-- What one `solve` call reports: the sat/unsat status, the emitted
schedule (exam-indexed `(room, slot)` list) when sat, the best-cost trace of
the executed loop iterations, and the final oracle state. -/
structure SolveOut (σ : Type) where
  sat : Bool
  assignment : Option (List (ℕ × ℕ))
  traj : List ℤ
  rngF : σ

/-- The search state after the random initialisation and `k` loop
iterations: the initial assignment is duplicated into the best assignment
and its cost recorded, exactly as `solve` sets up the loop. -/
noncomputable def runState {σ : Type} (D : Derived) (rg : Rng σ) (s0 : σ)
    (k : ℕ) : SState σ :=
  loopK D rg k
    ⟨(initAssn D rg D.En s0).1, (initAssn D rg D.En s0).2.1,
      (initAssn D rg D.En s0).1, (initAssn D rg D.En s0).2.1,
      D.cost (initAssn D rg D.En s0).1 (initAssn D rg D.En s0).2.1,
      (initAssn D rg D.En s0).2.2, []⟩

/-- The part of `solve` after the early sanity returns: the
structural-infeasibility check, the random initialisation, the annealing
loop, and the final report. -/
noncomputable def solveAfter {σ : Type} (D : Derived) (rg : Rng σ) (s0 : σ) :
    SolveOut σ :=
  if (List.range D.En).any (fun e => (D.cands e).isEmpty) then
    ⟨false, none, [], s0⟩
  else
    let sF := runState D rg s0 (maxIter D.En)
    if sF.bestCost ≠ 0 then ⟨false, none, sF.traj, sF.rng⟩
    else
      ⟨true, some ((List.range D.En).map (fun e => (sF.bestR e, sF.bestT e))),
        sF.traj, sF.rng⟩

/-- The `solve` function of the source over an oracle `rg` with initial
state `s0`: sanity checks, the zero-exam and zero-room/zero-slot early
returns, then `solveAfter` on the derived data. -/
noncomputable def solveRun {σ : Type} (inst : Instance) (rg : Rng σ) (s0 : σ) :
    SolveOut σ :=
  if inst.number_of_exams < 0 ∨ inst.number_of_rooms < 0 ∨
      inst.number_of_slots < 0 ∨ inst.number_of_students < 0 ∨
      (inst.room_capacities.length : ℤ) ≠ inst.number_of_rooms then
    ⟨false, none, [], s0⟩
  else if inst.number_of_exams = 0 then
    ⟨true, some [], [], s0⟩
  else if inst.number_of_rooms = 0 ∨ inst.number_of_slots = 0 then
    ⟨false, none, [], s0⟩
  else solveAfter (ofInstance inst) rg s0

/-- `inst` with one more incidence pair appended. -/
def withExtra (inst : Instance) (p : ℤ × ℤ) : Instance :=
  { inst with exams_to_students := inst.exams_to_students ++ [p] }

/-- A trivial deterministic oracle over the unit state, used to instantiate
theorems at concrete inputs. -/
noncomputable def unitRng : Rng Unit where
  randrange := fun _ _ => (0, ())
  choice := fun _ _ => (0, ())
  rand := fun _ => (0, ())

/-- A one-exam, one-student, one-room, one-slot instance with enough
capacity. -/
def inst1 : Instance := ⟨1, 1, 1, 1, [1], [(0, 0)]⟩

/-- `inst1` with zero room capacity, so the single exam (of size 1) fits in
no room: every candidate set is empty. -/
def instNoFit : Instance := ⟨1, 1, 1, 1, [0], [(0, 0)]⟩

/-- A capacity-length-mismatch instance: one room but an empty capacity
list. -/
def instBadCaps : Instance := ⟨1, 1, 1, 1, [], [(0, 0)]⟩

/-- Membership in a candidate list, for `r` and `t` ranging over the
instance's rooms and slots. -/
lemma mem_candidates {Rn Tn : ℕ} {caps : List ℤ} {sz r t : ℕ} :
    (r, t) ∈ candidates Rn Tn caps sz ↔
      r < Rn ∧ t < Tn ∧ (sz : ℤ) ≤ caps.getD r 0 ∧
        ¬(LARGE_EXAM_THRESHOLD ≤ sz ∧ t % SLOTS_PER_DAY = SLOTS_PER_DAY - 1) := by
  simp only [candidates, List.mem_flatten, List.mem_map, List.mem_range]
  constructor
  · rintro ⟨l, ⟨r', hr', rfl⟩, hmem⟩
    by_cases hc : (sz : ℤ) > caps.getD r' 0
    · rw [if_pos hc] at hmem
      exact absurd hmem (List.not_mem_nil _)
    · rw [if_neg hc] at hmem
      simp only [List.mem_map, List.mem_filter, List.mem_range,
        decide_eq_true_eq] at hmem
      obtain ⟨t', ⟨ht', hcond⟩, heq⟩ := hmem
      rw [Prod.mk.injEq] at heq
      obtain ⟨rfl, rfl⟩ := heq
      exact ⟨hr', ht', not_lt.mp hc, hcond⟩
  · rintro ⟨hr, ht, hcap, hnot⟩
    refine ⟨_, ⟨r, hr, rfl⟩, ?_⟩
    rw [if_neg (not_lt.mpr hcap)]
    simp only [List.mem_map, List.mem_filter, List.mem_range, decide_eq_true_eq]
    exact ⟨t, ⟨ht, hnot⟩, rfl⟩

/-- The candidate list is strictly increasing in the lexicographic
room-major, then slot order. -/
lemma candidates_pairwise (Rn Tn : ℕ) (caps : List ℤ) (sz : ℕ) :
    List.Pairwise (fun a b : ℕ × ℕ => a.1 < b.1 ∨ (a.1 = b.1 ∧ a.2 < b.2))
      (candidates Rn Tn caps sz) := by
  unfold candidates
  rw [List.pairwise_flatten]
  refine ⟨?_, ?_⟩
  · intro l hl
    simp only [List.mem_map, List.mem_range] at hl
    obtain ⟨r, hr, rfl⟩ := hl
    by_cases hc : (sz : ℤ) > caps.getD r 0
    · rw [if_pos hc]
      exact List.Pairwise.nil
    · rw [if_neg hc, List.pairwise_map]
      refine List.Pairwise.imp ?_ ((List.pairwise_lt_range Tn).filter _)
      intro a b hab
      exact Or.inr ⟨rfl, hab⟩
  · rw [List.pairwise_map]
    refine List.Pairwise.imp ?_ (List.pairwise_lt_range Rn)
    intro r1 r2 h12 x hx y hy
    have hx1 : x.1 = r1 := by
      by_cases hc : (sz : ℤ) > caps.getD r1 0
      · rw [if_pos hc] at hx
        exact absurd hx (List.not_mem_nil _)
      · rw [if_neg hc] at hx
        simp only [List.mem_map] at hx
        obtain ⟨t, _, rfl⟩ := hx
        rfl
    have hy1 : y.1 = r2 := by
      by_cases hc : (sz : ℤ) > caps.getD r2 0
      · rw [if_pos hc] at hy
        exact absurd hy (List.not_mem_nil _)
      · rw [if_neg hc] at hy
        simp only [List.mem_map] at hy
        obtain ⟨t, _, rfl⟩ := hy
        rfl
    left
    rw [hx1, hy1]
    exact h12

/-- C3 — Candidate generation: for `r` and `t` ranging over the instance's
rooms and slots, `(r, t)` is a candidate of an exam of size `sz` iff the
exam fits the room and it is not a large exam on a last slot of a day; the
list is strictly increasing in room-major, then slot order (hence also
duplicate-free), and it is produced by a pure function of its inputs, so
generation is deterministic. -/
theorem candidates_characterisation (Rn Tn : ℕ) (caps : List ℤ) (sz : ℕ) :
    (∀ r t, ((r, t) ∈ candidates Rn Tn caps sz ↔
        r < Rn ∧ t < Tn ∧ (sz : ℤ) ≤ caps.getD r 0 ∧
          ¬(LARGE_EXAM_THRESHOLD ≤ sz ∧ t % SLOTS_PER_DAY = SLOTS_PER_DAY - 1))) ∧
    List.Pairwise (fun a b : ℕ × ℕ => a.1 < b.1 ∨ (a.1 = b.1 ∧ a.2 < b.2))
      (candidates Rn Tn caps sz) :=
  ⟨fun _ _ => mem_candidates, candidates_pairwise Rn Tn caps sz⟩

/-- C9 — A same-slot pair of one student's exams incurs both the clash and
the minimum-gap penalty: since a slot difference of zero has magnitude at
most `MIN_GAP`, the per-pair penalty of the cost loop is exactly
`W_CLASH + W_MIN_GAP`. -/
theorem pairPenalty_same_slot (t1 t2 : ℕ) (h : t1 = t2) :
    pairPenalty t1 t2 = W_CLASH + W_MIN_GAP := by
  subst h
  simp [pairPenalty, MIN_GAP]

/-- Witness for `pairPenalty_same_slot` at slots `0, 0`. -/
theorem pairPenalty_same_slot_witness :
    (0 : ℕ) = 0 ∧ pairPenalty 0 0 = W_CLASH + W_MIN_GAP :=
  ⟨rfl, pairPenalty_same_slot 0 0 rfl⟩

/-- C8 — `solve` is deterministic: the Python generator `random.Random(42)`
is embedded as an explicit oracle, so two runs on the same instance with the
same oracle and the same initial oracle state produce the same report (same
status and emitted assignment) and the same best-cost trace. -/
theorem solveRun_deterministic {σ : Type} (inst : Instance) (rg1 rg2 : Rng σ)
    (s1 s2 : σ) (hr : rg1 = rg2) (hs : s1 = s2) :
    solveRun inst rg1 s1 = solveRun inst rg2 s2 ∧
      (solveRun inst rg1 s1).traj = (solveRun inst rg2 s2).traj := by
  subst hr
  subst hs
  exact ⟨rfl, rfl⟩

/-- Witness for `solveRun_deterministic` on `inst1` and the trivial oracle. -/
theorem solveRun_deterministic_witness :
    unitRng = unitRng ∧ (() = ()) ∧
      solveRun inst1 unitRng () = solveRun inst1 unitRng () ∧
      (solveRun inst1 unitRng ()).traj = (solveRun inst1 unitRng ()).traj :=
  ⟨rfl, rfl, solveRun_deterministic inst1 unitRng unitRng () () rfl rfl⟩

/-- C2 — The acceptance rule of one proposed (non-identical) move, with
`ra'` / `ta'` the moved assignment and `nc` its freshly recomputed cost:
the move is accepted unconditionally exactly when `nc` is strictly below
the best cost (best assignment and best cost are then updated to it);
otherwise it is kept exactly when the uniform draw falls strictly below
`exp (-(nc - best) / max temp 1e-6)` and reverted otherwise.  In both
branches the baseline is the best cost `s.bestCost`, never the prior
current cost. -/
theorem applyMove_metropolis {σ : Type} (D : Derived) (rg : Rng σ) (it e : ℕ)
    (c : ℕ × ℕ) (s2 : σ) (s : SState σ) (ra' ta' : ℕ → ℕ) (nc : ℤ)
    (hne : c ≠ (s.roomA e, s.timeA e))
    (hra : ra' = Function.update s.roomA e c.1)
    (hta : ta' = Function.update s.timeA e c.2)
    (hnc : nc = D.cost ra' ta') :
    (nc < s.bestCost →
      applyMove D rg it e c s2 s = ⟨ra', ta', ra', ta', nc, s2, s.traj ++ [nc]⟩) ∧
    (s.bestCost ≤ nc →
      ((rg.rand s2).1 <
          Real.exp (-((nc : ℝ) - (s.bestCost : ℝ)) / max (temp it) (1e-6)) →
        applyMove D rg it e c s2 s =
          ⟨ra', ta', s.bestR, s.bestT, s.bestCost, (rg.rand s2).2,
            s.traj ++ [s.bestCost]⟩) ∧
      (Real.exp (-((nc : ℝ) - (s.bestCost : ℝ)) / max (temp it) (1e-6)) ≤
          (rg.rand s2).1 →
        applyMove D rg it e c s2 s =
          ⟨s.roomA, s.timeA, s.bestR, s.bestT, s.bestCost, (rg.rand s2).2,
            s.traj ++ [s.bestCost]⟩)) := by
  subst hra
  subst hta
  subst hnc
  unfold applyMove
  rw [if_neg hne]
  refine ⟨fun h => ?_, fun h => ⟨fun hu => ?_, fun hu => ?_⟩⟩
  · rw [if_pos h]
  · rw [if_neg (not_lt.mpr h), if_pos hu]
  · rw [if_neg (not_lt.mpr h), if_neg (not_lt.mpr hu)]

/-- Witness for `applyMove_metropolis`: a concrete state on `inst1`-like
data where the proposed candidate differs from the current placement. -/
theorem applyMove_metropolis_witness :
    ((0, 1) : ℕ × ℕ) ≠ (0, 0) ∧
      ((ofInstance inst1).cost (Function.update (fun _ => (0 : ℕ)) 0 0)
          (Function.update (fun _ => (0 : ℕ)) 0 1) <
          (⟨fun _ => 0, fun _ => 0, fun _ => 0, fun _ => 0, 5, (), []⟩ :
            SState Unit).bestCost →
        applyMove (ofInstance inst1) unitRng 0 0 (0, 1) ()
            ⟨fun _ => 0, fun _ => 0, fun _ => 0, fun _ => 0, 5, (), []⟩ =
          ⟨Function.update (fun _ => 0) 0 0, Function.update (fun _ => 0) 0 1,
            Function.update (fun _ => 0) 0 0, Function.update (fun _ => 0) 0 1,
            (ofInstance inst1).cost (Function.update (fun _ => 0) 0 0)
              (Function.update (fun _ => 0) 0 1), (), [] ++
              [(ofInstance inst1).cost (Function.update (fun _ => 0) 0 0)
                (Function.update (fun _ => 0) 0 1)]⟩) :=
  ⟨by decide,
    (applyMove_metropolis (ofInstance inst1) unitRng 0 0 (0, 1) ()
      ⟨fun _ => 0, fun _ => 0, fun _ => 0, fun _ => 0, 5, (), []⟩
      (Function.update (fun _ => 0) 0 0) (Function.update (fun _ => 0) 0 1)
      ((ofInstance inst1).cost (Function.update (fun _ => 0) 0 0)
        (Function.update (fun _ => 0) 0 1))
      (by decide) rfl rfl rfl).1⟩

/-- One move never increases the best cost. -/
lemma applyMove_bestCost_le {σ : Type} (D : Derived) (rg : Rng σ) (it e : ℕ)
    (c : ℕ × ℕ) (s2 : σ) (s : SState σ) :
    (applyMove D rg it e c s2 s).bestCost ≤ s.bestCost := by
  unfold applyMove
  split_ifs with h1 h2 h3
  · exact le_refl _
  · exact le_of_lt h2
  · exact le_refl _
  · exact le_refl _

/-- One move preserves "the best cost is the cost of the stored best
assignment". -/
lemma applyMove_bestCost_matches {σ : Type} (D : Derived) (rg : Rng σ)
    (it e : ℕ) (c : ℕ × ℕ) (s2 : σ) (s : SState σ)
    (hinv : s.bestCost = D.cost s.bestR s.bestT) :
    (applyMove D rg it e c s2 s).bestCost =
      D.cost (applyMove D rg it e c s2 s).bestR (applyMove D rg it e c s2 s).bestT := by
  unfold applyMove
  split_ifs with h1 h2 h3
  · exact hinv
  · rfl
  · exact hinv
  · exact hinv

/-- One loop iteration never increases the best cost. -/
lemma step_bestCost_le {σ : Type} (D : Derived) (rg : Rng σ) (it : ℕ)
    (s : SState σ) : (step D rg it s).bestCost ≤ s.bestCost := by
  unfold step
  split_ifs with h1
  · exact le_refl _
  · exact applyMove_bestCost_le D rg it _ _ _ s

/-- One loop iteration preserves the best-cost/best-assignment invariant. -/
lemma step_bestCost_matches {σ : Type} (D : Derived) (rg : Rng σ) (it : ℕ)
    (s : SState σ) (hinv : s.bestCost = D.cost s.bestR s.bestT) :
    (step D rg it s).bestCost =
      D.cost (step D rg it s).bestR (step D rg it s).bestT := by
  unfold step
  split_ifs with h1
  · exact hinv
  · exact applyMove_bestCost_matches D rg it _ _ _ s hinv

/-- The invariant holds after any number of loop iterations. -/
lemma loopK_bestCost_matches {σ : Type} (D : Derived) (rg : Rng σ)
    (s : SState σ) (hinv : s.bestCost = D.cost s.bestR s.bestT) :
    ∀ n, (loopK D rg n s).bestCost =
      D.cost (loopK D rg n s).bestR (loopK D rg n s).bestT := by
  intro n
  induction n with
  | zero => exact hinv
  | succ n ih => exact step_bestCost_matches D rg n (loopK D rg n s) ih

/-- C5 — Within one run of the sampling loop (initial best = the freshly
costed initial assignment), the best cost is non-increasing from each
iteration to the next, and at every iteration it equals the cost of the
stored best assignment. -/
theorem bestCost_monotone {σ : Type} (D : Derived) (rg : Rng σ) (s0 : σ)
    (k : ℕ) :
    (runState D rg s0 (k + 1)).bestCost ≤ (runState D rg s0 k).bestCost ∧
      (runState D rg s0 k).bestCost =
        D.cost (runState D rg s0 k).bestR (runState D rg s0 k).bestT := by
  unfold runState
  exact ⟨step_bestCost_le D rg k _, loopK_bestCost_matches D rg _ rfl k⟩

/-- C4 — If some exam has an empty candidate sequence, `solve` reports
unsat before the sampling loop starts: the report carries no assignment, an
empty best-cost trace (no loop iteration was executed), and the untouched
initial oracle state (no random draw was consumed for initialisation or
moves). -/
theorem solveRun_unsat_on_empty_candidates {σ : Type} (inst : Instance)
    (rg : Rng σ) (s0 : σ)
    (h : ∃ e, e < (ofInstance inst).En ∧ (ofInstance inst).cands e = []) :
    solveRun inst rg s0 = ⟨false, none, [], s0⟩ := by
  unfold solveRun
  by_cases h1 : inst.number_of_exams < 0 ∨ inst.number_of_rooms < 0 ∨
      inst.number_of_slots < 0 ∨ inst.number_of_students < 0 ∨
      (inst.room_capacities.length : ℤ) ≠ inst.number_of_rooms
  · rw [if_pos h1]
  · rw [if_neg h1]
    by_cases h2 : inst.number_of_exams = 0
    · exfalso
      obtain ⟨e, he, _⟩ := h
      have hEn : (ofInstance inst).En = 0 := by simp [ofInstance, h2]
      rw [hEn] at he
      exact Nat.not_lt_zero _ he
    · rw [if_neg h2]
      by_cases h3 : inst.number_of_rooms = 0 ∨ inst.number_of_slots = 0
      · rw [if_pos h3]
      · rw [if_neg h3]
        unfold solveAfter
        have hany : (List.range (ofInstance inst).En).any
            (fun e => ((ofInstance inst).cands e).isEmpty) = true := by
          obtain ⟨e, he, hemp⟩ := h
          rw [List.any_eq_true]
          exact ⟨e, List.mem_range.mpr he, by simp [hemp]⟩
        rw [if_pos hany]

/-- Witness for `solveRun_unsat_on_empty_candidates` on `instNoFit`, whose
single exam of size 1 fits in no room of capacity 0. -/
theorem solveRun_unsat_on_empty_candidates_witness :
    (∃ e, e < (ofInstance instNoFit).En ∧ (ofInstance instNoFit).cands e = []) ∧
      solveRun instNoFit unitRng () = ⟨false, none, [], ()⟩ :=
  ⟨⟨0, by decide, by decide⟩,
    solveRun_unsat_on_empty_candidates instNoFit unitRng ()
      ⟨0, by decide, by decide⟩⟩

lemma insertAbsent_mem_self (l : List ℕ) (x : ℕ) : x ∈ insertAbsent l x := by
  unfold insertAbsent
  split_ifs with h
  · exact h
  · simp

lemma mem_insertAbsent_of_mem {l : List ℕ} {x y : ℕ} (h : y ∈ l) :
    y ∈ insertAbsent l x := by
  unfold insertAbsent
  split_ifs with h'
  · exact h
  · exact List.mem_append_left _ h

lemma ebsStep_subset (E S : ℤ) (s : ℕ) (acc : List ℕ) (p : ℤ × ℤ) {x : ℕ}
    (h : x ∈ acc) : x ∈ ebsStep E S s acc p := by
  unfold ebsStep
  split_ifs with h'
  · exact mem_insertAbsent_of_mem h
  · exact h

lemma foldl_ebsStep_subset (E S : ℤ) (s : ℕ) (l : List (ℤ × ℤ)) :
    ∀ (acc : List ℕ) {x : ℕ}, x ∈ acc → x ∈ l.foldl (ebsStep E S s) acc := by
  induction l with
  | nil => exact fun _ _ h => h
  | cons p l ih =>
    intro acc x h
    exact ih _ (ebsStep_subset E S s acc p h)

lemma foldl_ebsStep_mem (E S : ℤ) (s : ℕ) (l : List (ℤ × ℤ)) (q : ℤ × ℤ)
    (hq : q ∈ l)
    (hc : 0 ≤ q.1 ∧ q.1 < E ∧ 0 ≤ q.2 ∧ q.2 < S ∧ q.2.toNat = s) :
    ∀ acc : List ℕ, q.1.toNat ∈ l.foldl (ebsStep E S s) acc := by
  induction l with
  | nil => cases hq
  | cons p l ih =>
    intro acc
    rcases List.mem_cons.mp hq with rfl | hq'
    · simp only [List.foldl_cons]
      refine foldl_ebsStep_subset E S s l (ebsStep E S s acc q) ?_
      unfold ebsStep
      rw [if_pos hc]
      exact insertAbsent_mem_self _ _
    · simp only [List.foldl_cons]
      exact ih hq' _

lemma sbeStep_subset (E S : ℤ) (e : ℕ) (acc : List ℕ) (p : ℤ × ℤ) {x : ℕ}
    (h : x ∈ acc) : x ∈ sbeStep E S e acc p := by
  unfold sbeStep
  split_ifs with h'
  · exact mem_insertAbsent_of_mem h
  · exact h

lemma foldl_sbeStep_subset (E S : ℤ) (e : ℕ) (l : List (ℤ × ℤ)) :
    ∀ (acc : List ℕ) {x : ℕ}, x ∈ acc → x ∈ l.foldl (sbeStep E S e) acc := by
  induction l with
  | nil => exact fun _ _ h => h
  | cons p l ih =>
    intro acc x h
    exact ih _ (sbeStep_subset E S e acc p h)

lemma foldl_sbeStep_mem (E S : ℤ) (e : ℕ) (l : List (ℤ × ℤ)) (q : ℤ × ℤ)
    (hq : q ∈ l)
    (hc : 0 ≤ q.1 ∧ q.1 < E ∧ 0 ≤ q.2 ∧ q.2 < S ∧ q.1.toNat = e) :
    ∀ acc : List ℕ, q.2.toNat ∈ l.foldl (sbeStep E S e) acc := by
  induction l with
  | nil => cases hq
  | cons p l ih =>
    intro acc
    rcases List.mem_cons.mp hq with rfl | hq'
    · simp only [List.foldl_cons]
      refine foldl_sbeStep_subset E S e l (sbeStep E S e acc q) ?_
      unfold sbeStep
      rw [if_pos hc]
      exact insertAbsent_mem_self _ _
    · simp only [List.foldl_cons]
      exact ih hq' _

/-- Appending an incidence pair that is already present leaves
`exams_by_student` unchanged (Python set `add` of a present element). -/
lemma examsByStudent_append_dup (E S : ℤ) (pairs : List (ℤ × ℤ)) (p : ℤ × ℤ)
    (hp : p ∈ pairs) (s : ℕ) :
    examsByStudent E S (pairs ++ [p]) s = examsByStudent E S pairs s := by
  unfold examsByStudent
  rw [List.foldl_append]
  simp only [List.foldl_cons, List.foldl_nil]
  by_cases hc : 0 ≤ p.1 ∧ p.1 < E ∧ 0 ≤ p.2 ∧ p.2 < S ∧ p.2.toNat = s
  · have h1 : ebsStep E S s (List.foldl (ebsStep E S s) [] pairs) p =
        insertAbsent (List.foldl (ebsStep E S s) [] pairs) p.1.toNat := by
      unfold ebsStep
      rw [if_pos hc]
    rw [h1]
    unfold insertAbsent
    rw [if_pos (foldl_ebsStep_mem E S s pairs p hp hc [])]
  · have h1 : ebsStep E S s (List.foldl (ebsStep E S s) [] pairs) p =
        List.foldl (ebsStep E S s) [] pairs := by
      unfold ebsStep
      rw [if_neg hc]
    rw [h1]

/-- Appending an out-of-range incidence pair leaves `exams_by_student`
unchanged (the build loop silently skips it). -/
lemma examsByStudent_append_oor (E S : ℤ) (pairs : List (ℤ × ℤ)) (p : ℤ × ℤ)
    (hp : ¬(0 ≤ p.1 ∧ p.1 < E ∧ 0 ≤ p.2 ∧ p.2 < S)) (s : ℕ) :
    examsByStudent E S (pairs ++ [p]) s = examsByStudent E S pairs s := by
  unfold examsByStudent
  rw [List.foldl_append]
  simp only [List.foldl_cons, List.foldl_nil]
  unfold ebsStep
  rw [if_neg (fun h => hp ⟨h.1, h.2.1, h.2.2.1, h.2.2.2.1⟩)]

/-- Appending an already-present incidence pair leaves `students_by_exam`
unchanged. -/
lemma studentsByExam_append_dup (E S : ℤ) (pairs : List (ℤ × ℤ)) (p : ℤ × ℤ)
    (hp : p ∈ pairs) (e : ℕ) :
    studentsByExam E S (pairs ++ [p]) e = studentsByExam E S pairs e := by
  unfold studentsByExam
  rw [List.foldl_append]
  simp only [List.foldl_cons, List.foldl_nil]
  by_cases hc : 0 ≤ p.1 ∧ p.1 < E ∧ 0 ≤ p.2 ∧ p.2 < S ∧ p.1.toNat = e
  · have h1 : sbeStep E S e (List.foldl (sbeStep E S e) [] pairs) p =
        insertAbsent (List.foldl (sbeStep E S e) [] pairs) p.2.toNat := by
      unfold sbeStep
      rw [if_pos hc]
    rw [h1]
    unfold insertAbsent
    rw [if_pos (foldl_sbeStep_mem E S e pairs p hp hc [])]
  · have h1 : sbeStep E S e (List.foldl (sbeStep E S e) [] pairs) p =
        List.foldl (sbeStep E S e) [] pairs := by
      unfold sbeStep
      rw [if_neg hc]
    rw [h1]

/-- Appending an out-of-range incidence pair leaves `students_by_exam`
unchanged. -/
lemma studentsByExam_append_oor (E S : ℤ) (pairs : List (ℤ × ℤ)) (p : ℤ × ℤ)
    (hp : ¬(0 ≤ p.1 ∧ p.1 < E ∧ 0 ≤ p.2 ∧ p.2 < S)) (e : ℕ) :
    studentsByExam E S (pairs ++ [p]) e = studentsByExam E S pairs e := by
  unfold studentsByExam
  rw [List.foldl_append]
  simp only [List.foldl_cons, List.foldl_nil]
  unfold sbeStep
  rw [if_neg (fun h => hp ⟨h.1, h.2.1, h.2.2.1, h.2.2.2.1⟩)]

/-- Appending an already-present pair leaves all derived data unchanged. -/
lemma ofInstance_withExtra_dup (inst : Instance) (p : ℤ × ℤ)
    (hp : p ∈ inst.exams_to_students) :
    ofInstance (withExtra inst p) = ofInstance inst := by
  unfold ofInstance withExtra
  simp only [Derived.mk.injEq]
  refine ⟨trivial, trivial, trivial, trivial, trivial, ?_, ?_⟩
  · funext s
    exact examsByStudent_append_dup _ _ _ p hp s
  · funext e
    unfold examSize
    rw [studentsByExam_append_dup _ _ _ p hp e]

/-- Appending an out-of-range pair leaves all derived data unchanged. -/
lemma ofInstance_withExtra_oor (inst : Instance) (p : ℤ × ℤ)
    (hp : ¬(0 ≤ p.1 ∧ p.1 < inst.number_of_exams ∧ 0 ≤ p.2 ∧
      p.2 < inst.number_of_students)) :
    ofInstance (withExtra inst p) = ofInstance inst := by
  unfold ofInstance withExtra
  simp only [Derived.mk.injEq]
  refine ⟨trivial, trivial, trivial, trivial, trivial, ?_, ?_⟩
  · funext s
    exact examsByStudent_append_oor _ _ _ p hp s
  · funext e
    unfold examSize
    rw [studentsByExam_append_oor _ _ _ p hp e]

/-- `solve` depends on the incidence pairs only through the derived data. -/
lemma solveRun_withExtra_congr {σ : Type} (inst : Instance) (p : ℤ × ℤ)
    (rg : Rng σ) (s0 : σ)
    (hD : ofInstance (withExtra inst p) = ofInstance inst) :
    solveRun (withExtra inst p) rg s0 = solveRun inst rg s0 := by
  unfold solveRun
  rw [hD]
  rfl

/-- C10 — Duplicate incidence pairs are absorbed: appending an
already-present `(exam, student)` pair to the input changes nothing — the
incidence sets, exam sizes, candidate sets and the whole search trajectory
coincide, so `solve` returns an identical report. -/
theorem solveRun_duplicate_pair_absorbed {σ : Type} (inst : Instance)
    (p : ℤ × ℤ) (rg : Rng σ) (s0 : σ) (hp : p ∈ inst.exams_to_students) :
    solveRun (withExtra inst p) rg s0 = solveRun inst rg s0 :=
  solveRun_withExtra_congr inst p rg s0 (ofInstance_withExtra_dup inst p hp)

/-- Witness for `solveRun_duplicate_pair_absorbed`: duplicating the pair
`(0, 0)` of `inst1`. -/
theorem solveRun_duplicate_pair_absorbed_witness :
    ((0, 0) : ℤ × ℤ) ∈ inst1.exams_to_students ∧
      solveRun (withExtra inst1 (0, 0)) unitRng () = solveRun inst1 unitRng () :=
  ⟨by decide,
    solveRun_duplicate_pair_absorbed inst1 (0, 0) unitRng () (by decide)⟩

/-- C7 (counterexample) — On a capacity-length mismatch (`instBadCaps` has
one room but an empty capacity list) `solve` does not raise an error: it
runs to completion and reports a normal unsat result to the caller,
contradicting the claim that no result is reported for such inputs.  (The
embedded `solve` is a total function into `SolveOut` because the source
contains no `raise` on this path.) -/
theorem solveRun_reports_on_capacity_mismatch :
    solveRun instBadCaps unitRng () = ⟨false, none, [], ()⟩ := by
  unfold solveRun
  rw [if_pos (by decide :
    instBadCaps.number_of_exams < 0 ∨ instBadCaps.number_of_rooms < 0 ∨
      instBadCaps.number_of_slots < 0 ∨ instBadCaps.number_of_students < 0 ∨
      (instBadCaps.room_capacities.length : ℤ) ≠ instBadCaps.number_of_rooms)]

/-- C7 (amended) — `solve` never raises: a capacity-length mismatch or a
negative count makes it return an immediate unsat report (no search, no
draws), and an out-of-range incidence pair is silently dropped — appending
one to the input leaves the whole run unchanged. -/
theorem solveRun_bad_input_behaviour :
    (∀ (σ : Type) (inst : Instance) (rg : Rng σ) (s0 : σ),
      (inst.number_of_exams < 0 ∨ inst.number_of_rooms < 0 ∨
        inst.number_of_slots < 0 ∨ inst.number_of_students < 0 ∨
        (inst.room_capacities.length : ℤ) ≠ inst.number_of_rooms) →
      solveRun inst rg s0 = ⟨false, none, [], s0⟩) ∧
    (∀ (σ : Type) (inst : Instance) (p : ℤ × ℤ) (rg : Rng σ) (s0 : σ),
      ¬(0 ≤ p.1 ∧ p.1 < inst.number_of_exams ∧ 0 ≤ p.2 ∧
        p.2 < inst.number_of_students) →
      solveRun (withExtra inst p) rg s0 = solveRun inst rg s0) := by
  constructor
  · intro σ inst rg s0 h
    unfold solveRun
    rw [if_pos h]
  · intro σ inst p rg s0 hp
    exact solveRun_withExtra_congr inst p rg s0 (ofInstance_withExtra_oor inst p hp)

/-- Witness for `solveRun_bad_input_behaviour`: the mismatch input
`instBadCaps` gets an immediate unsat report, and appending the
out-of-range pair `(5, 0)` to `inst1` changes nothing. -/
theorem solveRun_bad_input_behaviour_witness :
    ((instBadCaps.room_capacities.length : ℤ) ≠ instBadCaps.number_of_rooms) ∧
      solveRun instBadCaps unitRng () = ⟨false, none, [], ()⟩ ∧
      ¬(0 ≤ ((5 : ℤ), (0 : ℤ)).1 ∧ ((5 : ℤ), (0 : ℤ)).1 < inst1.number_of_exams ∧
        0 ≤ ((5 : ℤ), (0 : ℤ)).2 ∧ ((5 : ℤ), (0 : ℤ)).2 < inst1.number_of_students) ∧
      solveRun (withExtra inst1 (5, 0)) unitRng () = solveRun inst1 unitRng () :=
  ⟨by decide,
    solveRun_bad_input_behaviour.1 Unit instBadCaps unitRng ()
      (by decide),
    by decide,
    solveRun_bad_input_behaviour.2 Unit inst1 (5, 0) unitRng () (by decide)⟩

lemma getD_mem_pair {l : List (ℕ × ℕ)} {i : ℕ} (h : i < l.length) :
    l.getD i (0, 0) ∈ l := by
  rw [List.getD_eq_getElem?_getD, List.getElem?_eq_getElem h]
  exact List.getElem_mem h

/-- Every exam (below the bound) is placed on one of its candidates, in both
the current and the best assignment. -/
def CandInv {σ : Type} (D : Derived) (s : SState σ) : Prop :=
  ∀ e, e < D.En →
    (s.roomA e, s.timeA e) ∈ D.cands e ∧ (s.bestR e, s.bestT e) ∈ D.cands e

/-- The random initialisation places every processed exam on one of its
candidates. -/
lemma initAssn_mem {σ : Type} (D : Derived) (rg : Rng σ) (hv : rg.Valid) :
    ∀ (k : ℕ) (s0 : σ), (∀ e, e < k → D.cands e ≠ []) →
      ∀ e, e < k →
        ((initAssn D rg k s0).1 e, (initAssn D rg k s0).2.1 e) ∈ D.cands e := by
  intro k
  induction k with
  | zero => exact fun s0 _ e he => absurd he (Nat.not_lt_zero e)
  | succ k ih =>
    intro s0 hne e he
    simp only [initAssn]
    rcases Nat.lt_succ_iff_lt_or_eq.mp he with h | rfl
    · rw [Function.update_noteq (Nat.ne_of_lt h),
        Function.update_noteq (Nat.ne_of_lt h)]
      exact ih s0 (fun e' he' => hne e' (Nat.lt_succ_of_lt he')) e h
    · rw [Function.update_same, Function.update_same, Prod.mk.eta]
      have hlen : 0 < (D.cands e).length :=
        List.length_pos.mpr (hne e (Nat.lt_succ_self e))
      exact getD_mem_pair (hv.2 _ _ hlen)

/-- One move preserves the candidate invariant, provided the proposed
candidate is a genuine candidate of the moved exam. -/
lemma applyMove_candInv {σ : Type} (D : Derived) (rg : Rng σ) (it e0 : ℕ)
    (c : ℕ × ℕ) (s2 : σ) (s : SState σ) (hcmem : c ∈ D.cands e0)
    (hs : CandInv D s) : CandInv D (applyMove D rg it e0 c s2 s) := by
  intro e he
  unfold applyMove
  split_ifs with h1 h2 h3 <;> dsimp only
  · exact hs e he
  · by_cases hee : e = e0
    · subst hee
      rw [Function.update_same, Function.update_same, Prod.mk.eta]
      exact ⟨hcmem, hcmem⟩
    · rw [Function.update_noteq hee, Function.update_noteq hee]
      exact ⟨(hs e he).1, (hs e he).1⟩
  · by_cases hee : e = e0
    · subst hee
      refine ⟨?_, (hs e he).2⟩
      rw [Function.update_same, Function.update_same, Prod.mk.eta]
      exact hcmem
    · refine ⟨?_, (hs e he).2⟩
      rw [Function.update_noteq hee, Function.update_noteq hee]
      exact (hs e he).1
  · exact hs e he

/-- One loop iteration preserves the candidate invariant. -/
lemma step_candInv {σ : Type} (D : Derived) (rg : Rng σ) (hv : rg.Valid)
    (hne : ∀ e, e < D.En → D.cands e ≠ []) (it : ℕ) (s : SState σ)
    (hs : CandInv D s) : CandInv D (step D rg it s) := by
  unfold step
  split_ifs with h1
  · exact hs
  · by_cases hEn : 0 < D.En
    · have he0 : (rg.randrange D.En s.rng).1 < D.En := hv.1 _ _ hEn
      have hlen : 0 < (D.cands (rg.randrange D.En s.rng).1).length :=
        List.length_pos.mpr (hne _ he0)
      exact applyMove_candInv D rg it _ _ _ s (getD_mem_pair (hv.2 _ _ hlen)) hs
    · exact fun e he => absurd he (by omega)

/-- The candidate invariant holds after any number of loop iterations. -/
lemma loopK_candInv {σ : Type} (D : Derived) (rg : Rng σ) (hv : rg.Valid)
    (hne : ∀ e, e < D.En → D.cands e ≠ []) (s : SState σ) (hs : CandInv D s) :
    ∀ n, CandInv D (loopK D rg n s) := by
  intro n
  induction n with
  | zero => exact hs
  | succ n ih => exact step_candInv D rg hv hne n (loopK D rg n s) ih

/-- C6 — At every point of the search (after initialisation, `k = 0`, and
after each further proposed, accepted or reverted move), every exam's
placement — in the current and in the best assignment — is a member of the
exam's candidate set; in particular a large exam is never placed on a last
slot of a day. -/
theorem search_respects_candidates {σ : Type} (inst : Instance) (rg : Rng σ)
    (s0 : σ) (hv : rg.Valid)
    (hne : ∀ e, e < (ofInstance inst).En → (ofInstance inst).cands e ≠ [])
    (k : ℕ) :
    ∀ e, e < (ofInstance inst).En →
      (((runState (ofInstance inst) rg s0 k).roomA e,
          (runState (ofInstance inst) rg s0 k).timeA e) ∈ (ofInstance inst).cands e ∧
        ((runState (ofInstance inst) rg s0 k).bestR e,
          (runState (ofInstance inst) rg s0 k).bestT e) ∈ (ofInstance inst).cands e) ∧
      (LARGE_EXAM_THRESHOLD ≤ (ofInstance inst).sz e →
        (runState (ofInstance inst) rg s0 k).timeA e % SLOTS_PER_DAY ≠
            SLOTS_PER_DAY - 1 ∧
          (runState (ofInstance inst) rg s0 k).bestT e % SLOTS_PER_DAY ≠
            SLOTS_PER_DAY - 1) := by
  have h0 : CandInv (ofInstance inst)
      (⟨(initAssn (ofInstance inst) rg (ofInstance inst).En s0).1,
        (initAssn (ofInstance inst) rg (ofInstance inst).En s0).2.1,
        (initAssn (ofInstance inst) rg (ofInstance inst).En s0).1,
        (initAssn (ofInstance inst) rg (ofInstance inst).En s0).2.1,
        (ofInstance inst).cost (initAssn (ofInstance inst) rg (ofInstance inst).En s0).1
          (initAssn (ofInstance inst) rg (ofInstance inst).En s0).2.1,
        (initAssn (ofInstance inst) rg (ofInstance inst).En s0).2.2, []⟩ :
          SState σ) := by
    intro e he
    exact ⟨initAssn_mem (ofInstance inst) rg hv _ s0 hne e he,
      initAssn_mem (ofInstance inst) rg hv _ s0 hne e he⟩
  have hrun : CandInv (ofInstance inst) (runState (ofInstance inst) rg s0 k) :=
    loopK_candInv (ofInstance inst) rg hv hne _ h0 k
  intro e he
  refine ⟨hrun e he, fun hlarge => ?_⟩
  have h1 := (mem_candidates.mp (hrun e he).1).2.2.2
  have h2 := (mem_candidates.mp (hrun e he).2).2.2.2
  exact ⟨fun hmod => h1 ⟨hlarge, hmod⟩, fun hmod => h2 ⟨hlarge, hmod⟩⟩

/-- Witness for `search_respects_candidates` on `inst1` with the trivial
valid oracle, after initialisation (`k = 0`). -/
theorem search_respects_candidates_witness :
    Rng.Valid unitRng ∧
      (∀ e, e < (ofInstance inst1).En → (ofInstance inst1).cands e ≠ []) ∧
      (∀ e, e < (ofInstance inst1).En →
        (((runState (ofInstance inst1) unitRng () 0).roomA e,
            (runState (ofInstance inst1) unitRng () 0).timeA e) ∈
              (ofInstance inst1).cands e ∧
          ((runState (ofInstance inst1) unitRng () 0).bestR e,
            (runState (ofInstance inst1) unitRng () 0).bestT e) ∈
              (ofInstance inst1).cands e) ∧
        (LARGE_EXAM_THRESHOLD ≤ (ofInstance inst1).sz e →
          (runState (ofInstance inst1) unitRng () 0).timeA e % SLOTS_PER_DAY ≠
              SLOTS_PER_DAY - 1 ∧
            (runState (ofInstance inst1) unitRng () 0).bestT e % SLOTS_PER_DAY ≠
              SLOTS_PER_DAY - 1)) :=
  ⟨⟨fun _ _ h => h, fun _ _ h => h⟩, by decide,
    search_respects_candidates inst1 unitRng () ⟨fun _ _ h => h, fun _ _ h => h⟩
      (by decide) 0⟩

/-- Violation class: two distinct exams share a room and a slot. -/
def RoomDoubleViol (En : ℕ) (ra ta : ℕ → ℕ) : Prop :=
  ∃ e1, e1 < En ∧ ∃ e2, e2 < En ∧ e1 ≠ e2 ∧ ra e1 = ra e2 ∧ ta e1 = ta e2

/-- Violation class: some student has two distinct exams in the same slot. -/
def ClashViol (Sn : ℕ) (ebs : ℕ → List ℕ) (ta : ℕ → ℕ) : Prop :=
  ∃ s, s < Sn ∧ ∃ e1 ∈ ebs s, ∃ e2 ∈ ebs s, e1 ≠ e2 ∧ ta e1 = ta e2

/-- Violation class: some student has two distinct exams whose slot
difference has magnitude at most `MIN_GAP`. -/
def MinGapViol (Sn : ℕ) (ebs : ℕ → List ℕ) (ta : ℕ → ℕ) : Prop :=
  ∃ s, s < Sn ∧ ∃ e1 ∈ ebs s, ∃ e2 ∈ ebs s, e1 ≠ e2 ∧
    |(ta e1 : ℤ) - (ta e2 : ℤ)| ≤ MIN_GAP

/-- Violation class: some student has more than two exams on one day. -/
def DayCapViol (Sn : ℕ) (ebs : ℕ → List ℕ) (ta : ℕ → ℕ) : Prop :=
  ∃ s, s < Sn ∧ ∃ d ∈ (ebs s).map (fun e => ta e / SLOTS_PER_DAY),
    2 < ((ebs s).map (fun e => ta e / SLOTS_PER_DAY)).count d

/-- Violation class: two distinct exams in the same room are within the
turnaround gap of each other. -/
def TurnaroundViol (En : ℕ) (ra ta : ℕ → ℕ) : Prop :=
  ∃ e1, e1 < En ∧ ∃ e2, e2 < En ∧ e1 ≠ e2 ∧ ra e1 = ra e2 ∧
    |(ta e1 : ℤ) - (ta e2 : ℤ)| ≤ TURNAROUND_GAP

/-- Violation class: a large exam sits on a last slot of a day. -/
def LargeLastViol (En Tn : ℕ) (sz : ℕ → ℕ) (ta : ℕ → ℕ) : Prop :=
  ∃ e, e < En ∧ LARGE_EXAM_THRESHOLD ≤ sz e ∧ ta e ∈ lastSlots Tn

/-- Violation class: some slot's invigilator demand exceeds the capacity. -/
def InvigViol (En Tn : ℕ) (sz : ℕ → ℕ) (ta : ℕ → ℕ) : Prop :=
  ∃ t, t < Tn ∧ EXAMINER_CAPACITY < slotDemand En sz ta t

lemma ite_weight_nonneg (c : Prop) [Decidable c] {w : ℤ} (hw : 0 ≤ w) :
    0 ≤ if c then w else 0 := by
  split_ifs with h
  · exact hw
  · exact le_refl 0

lemma sum_int_eq_zero_iff {l : List ℤ} (h : ∀ x ∈ l, 0 ≤ x) :
    l.sum = 0 ↔ ∀ x ∈ l, x = 0 := by
  induction l with
  | nil => simp
  | cons a l ih =>
    have ha : 0 ≤ a := h a (List.mem_cons_self a l)
    have hl : ∀ x ∈ l, 0 ≤ x := fun x hx => h x (List.mem_cons_of_mem a hx)
    rw [List.sum_cons, add_eq_zero_iff_of_nonneg ha (List.sum_nonneg hl), ih hl]
    constructor
    · rintro ⟨h1, h2⟩ x hx
      rcases List.mem_cons.mp hx with rfl | hx'
      · exact h1
      · exact h2 x hx'
    · intro hall
      exact ⟨hall a (List.mem_cons_self a l),
        fun x hx => hall x (List.mem_cons_of_mem a hx)⟩

lemma sum_map_int_eq_zero_iff {α : Type} {l : List α} {f : α → ℤ}
    (h : ∀ x ∈ l, 0 ≤ f x) : (l.map f).sum = 0 ↔ ∀ x ∈ l, f x = 0 := by
  rw [sum_int_eq_zero_iff (by
    intro y hy
    obtain ⟨x, hx, rfl⟩ := List.mem_map.mp hy
    exact h x hx)]
  constructor
  · intro hz x hx
    exact hz (f x) (List.mem_map_of_mem f hx)
  · intro hz y hy
    obtain ⟨x, hx, rfl⟩ := List.mem_map.mp hy
    exact hz x hx

lemma pairSum_nonneg {g : ℕ → ℕ → ℤ} (hg : ∀ a b, 0 ≤ g a b) :
    ∀ l : List ℕ, 0 ≤ pairSum g l := by
  intro l
  induction l with
  | nil => exact le_refl 0
  | cons x xs ih =>
    rw [pairSum]
    exact add_nonneg (List.sum_nonneg (by
      intro y hy
      obtain ⟨b, _, rfl⟩ := List.mem_map.mp hy
      exact hg x b)) ih

lemma pairSum_eq_zero_iff {g : ℕ → ℕ → ℤ} (hg : ∀ a b, 0 ≤ g a b)
    (l : List ℕ) :
    pairSum g l = 0 ↔ List.Pairwise (fun a b => g a b = 0) l := by
  induction l with
  | nil => simp [pairSum]
  | cons x xs ih =>
    rw [pairSum, add_eq_zero_iff_of_nonneg (List.sum_nonneg (by
        intro y hy
        obtain ⟨b, _, rfl⟩ := List.mem_map.mp hy
        exact hg x b)) (pairSum_nonneg hg xs),
      sum_map_int_eq_zero_iff (fun b _ => hg x b), ih, List.pairwise_cons]

/-- The per-pair penalty vanishes iff the pair is neither a clash nor a
minimum-gap violation. -/
lemma pairPenalty_eq_zero_iff {t1 t2 : ℕ} :
    pairPenalty t1 t2 = 0 ↔
      ¬(t1 = t2) ∧ ¬(|(t1 : ℤ) - (t2 : ℤ)| ≤ MIN_GAP) := by
  unfold pairPenalty
  split_ifs with h1 h2 h2
  · constructor
    · intro h
      norm_num [W_CLASH, W_MIN_GAP] at h
    · rintro ⟨hc, _⟩
      exact absurd h1 hc
  · constructor
    · intro h
      norm_num [W_CLASH] at h
    · rintro ⟨hc, _⟩
      exact absurd h1 hc
  · constructor
    · intro h
      norm_num [W_MIN_GAP] at h
    · rintro ⟨_, hgp⟩
      exact absurd h2 hgp
  · exact iff_of_true (by norm_num) ⟨h1, h2⟩

lemma pairPenalty_zero_symm {t1 t2 : ℕ} (h : pairPenalty t1 t2 = 0) :
    pairPenalty t2 t1 = 0 := by
  rw [pairPenalty_eq_zero_iff] at h ⊢
  exact ⟨fun he => h.1 he.symm, fun hle => h.2 (by rwa [abs_sub_comm] at hle)⟩

lemma adjPen_nonneg (l : List ℕ) : 0 ≤ adjPen l := by
  unfold adjPen
  apply List.sum_nonneg
  intro y hy
  obtain ⟨p, _, rfl⟩ := List.mem_map.mp hy
  split_ifs with h
  · norm_num [W_TURNAROUND]
  · exact le_refl 0

/-- On a sorted slot list, the adjacent-pair penalty vanishes iff all pairs
of entries are more than the turnaround gap apart. -/
lemma adjPen_sorted_eq_zero_iff :
    ∀ {l : List ℕ}, l.Sorted (· ≤ ·) →
      (adjPen l = 0 ↔
        List.Pairwise (fun a b : ℕ => ¬(|(a : ℤ) - (b : ℤ)| ≤ TURNAROUND_GAP)) l) := by
  intro l
  induction l with
  | nil => intro _; simp [adjPen]
  | cons a l ih =>
    cases l with
    | nil =>
      intro _
      simp [adjPen]
    | cons b rest =>
      intro hs
      rw [List.sorted_cons] at hs
      obtain ⟨hale, hs'⟩ := hs
      have hstep : adjPen (a :: b :: rest) =
          (if |(b : ℤ) - (a : ℤ)| ≤ TURNAROUND_GAP then W_TURNAROUND else 0) +
            adjPen (b :: rest) := rfl
      rw [hstep,
        add_eq_zero_iff_of_nonneg
          (ite_weight_nonneg _ (by norm_num [W_TURNAROUND])) (adjPen_nonneg _),
        List.pairwise_cons, ih hs']
      have hsrt := List.sorted_cons.mp hs'
      constructor
      · rintro ⟨h1, h2⟩
        have hfab : ¬(|(b : ℤ) - (a : ℤ)| ≤ TURNAROUND_GAP) := by
          intro hle
          rw [if_pos hle] at h1
          norm_num [W_TURNAROUND] at h1
        refine ⟨?_, h2⟩
        intro x hx
        rcases List.mem_cons.mp hx with rfl | hx'
        · rw [abs_sub_comm]
          exact hfab
        · have hab : a ≤ b := hale b (List.mem_cons_self b rest)
          have hbx : b ≤ x := hsrt.1 x hx'
          rw [abs_sub_le_iff] at hfab ⊢
          push_neg at hfab ⊢
          omega
      · rintro ⟨hfa, h2⟩
        refine ⟨?_, h2⟩
        rw [if_neg (by
          rw [abs_sub_comm]
          exact hfa b (List.mem_cons_self b rest))]

lemma countTerm_nonneg {α : Type} [DecidableEq α] {w : ℤ} (hw : 0 ≤ w)
    (k : ℕ) (l : List α) : 0 ≤ countTerm w k l := by
  apply List.sum_nonneg
  intro y hy
  obtain ⟨p, hp, rfl⟩ := List.mem_map.mp hy
  split_ifs with h
  · have h' : (k : ℤ) < (l.count p : ℤ) := by exact_mod_cast h
    exact mul_nonneg hw (by linarith)
  · exact le_refl 0

lemma countTerm_eq_zero_iff {α : Type} [DecidableEq α] {w : ℤ} (hw : 0 < w)
    (k : ℕ) (l : List α) : countTerm w k l = 0 ↔ ∀ p ∈ l, l.count p ≤ k := by
  unfold countTerm
  rw [sum_map_int_eq_zero_iff (fun p _ => by
    split_ifs with h
    · have h' : (k : ℤ) < (l.count p : ℤ) := by exact_mod_cast h
      exact mul_nonneg (le_of_lt hw) (by linarith)
    · exact le_refl 0)]
  constructor
  · intro hz p hp
    by_contra hgt
    push_neg at hgt
    have hz' := hz p (List.mem_dedup.mpr hp)
    rw [if_pos hgt] at hz'
    have h' : (k : ℤ) < (l.count p : ℤ) := by exact_mod_cast hgt
    rcases mul_eq_zero.mp hz' with h0 | h0
    · linarith
    · linarith
  · intro hle p hp
    rw [if_neg (not_lt.mpr (hle p (List.mem_dedup.mp hp)))]

lemma countTerm_eq_zero_iff_nodup {α : Type} [DecidableEq α] {w : ℤ}
    (hw : 0 < w) (l : List α) : countTerm w 1 l = 0 ↔ l.Nodup := by
  rw [countTerm_eq_zero_iff hw, List.nodup_iff_count_le_one]
  constructor
  · intro h p
    by_cases hp : p ∈ l
    · exact h p hp
    · rw [List.count_eq_zero_of_not_mem hp]
      omega
  · exact fun h p _ => h p

lemma roomDoubleTerm_nonneg (En : ℕ) (ra ta : ℕ → ℕ) :
    0 ≤ roomDoubleTerm En ra ta :=
  countTerm_nonneg (by norm_num [W_ROOM_DOUBLE]) 1 _

lemma roomDoubleTerm_eq_zero_iff (En : ℕ) (ra ta : ℕ → ℕ) :
    roomDoubleTerm En ra ta = 0 ↔ ¬RoomDoubleViol En ra ta := by
  unfold roomDoubleTerm RoomDoubleViol
  rw [countTerm_eq_zero_iff_nodup (by norm_num [W_ROOM_DOUBLE]),
    List.nodup_map_iff_inj_on (List.nodup_range En)]
  constructor
  · intro hinj
    rintro ⟨e1, he1, e2, he2, hne, h1, h2⟩
    refine hne (hinj e1 (List.mem_range.mpr he1) e2 (List.mem_range.mpr he2) ?_)
    rw [Prod.mk.injEq]
    exact ⟨h1, h2⟩
  · intro hnv x hx y hy hxy
    by_contra hne
    rw [Prod.mk.injEq] at hxy
    exact hnv ⟨x, List.mem_range.mp hx, y, List.mem_range.mp hy, hne, hxy.1, hxy.2⟩

lemma pairPenalty_nonneg (t1 t2 : ℕ) : 0 ≤ pairPenalty t1 t2 :=
  add_nonneg (ite_weight_nonneg _ (by norm_num [W_CLASH]))
    (ite_weight_nonneg _ (by norm_num [W_MIN_GAP]))

lemma dayTerm_nonneg (ta : ℕ → ℕ) (exams : List ℕ) : 0 ≤ dayTerm ta exams :=
  countTerm_nonneg (by norm_num [W_DAY_CAP]) 2 _

lemma studentTerm_nonneg (Sn : ℕ) (ebs : ℕ → List ℕ) (ta : ℕ → ℕ) :
    0 ≤ studentTerm Sn ebs ta := by
  apply List.sum_nonneg
  intro y hy
  obtain ⟨s, _, rfl⟩ := List.mem_map.mp hy
  exact add_nonneg (pairSum_nonneg (fun a b => pairPenalty_nonneg _ _) _)
    (dayTerm_nonneg _ _)

/-- The student term vanishes iff there is no clash, no minimum-gap
violation and no daily overload (the student exam lists are duplicate-free,
as Python sets are). -/
lemma studentTerm_eq_zero_iff (Sn : ℕ) (ebs : ℕ → List ℕ) (ta : ℕ → ℕ)
    (hnd : ∀ s, (ebs s).Nodup) :
    studentTerm Sn ebs ta = 0 ↔
      ¬ClashViol Sn ebs ta ∧ ¬MinGapViol Sn ebs ta ∧ ¬DayCapViol Sn ebs ta := by
  unfold studentTerm
  rw [sum_map_int_eq_zero_iff (fun s _ =>
    add_nonneg (pairSum_nonneg (fun a b => pairPenalty_nonneg _ _) _)
      (dayTerm_nonneg _ _))]
  have hkey : ∀ s,
      (pairSum (fun e1 e2 => pairPenalty (ta e1) (ta e2)) (ebs s) +
          dayTerm ta (ebs s) = 0) ↔
        (List.Pairwise (fun a b => pairPenalty (ta a) (ta b) = 0) (ebs s) ∧
          ∀ d ∈ (ebs s).map (fun e => ta e / SLOTS_PER_DAY),
            ((ebs s).map (fun e => ta e / SLOTS_PER_DAY)).count d ≤ 2) := by
    intro s
    rw [add_eq_zero_iff_of_nonneg
        (pairSum_nonneg (fun a b => pairPenalty_nonneg _ _) _) (dayTerm_nonneg _ _),
      pairSum_eq_zero_iff (fun a b => pairPenalty_nonneg _ _)]
    unfold dayTerm
    rw [countTerm_eq_zero_iff (by norm_num [W_DAY_CAP])]
  constructor
  · intro h
    refine ⟨?_, ?_, ?_⟩
    · rintro ⟨s, hs, e1, he1, e2, he2, hne, heq⟩
      have hp := ((hkey s).mp (h _ (List.mem_range.mpr hs))).1
      have h0 := List.Pairwise.forall
        (fun a b hab => pairPenalty_zero_symm hab) hp he1 he2 hne
      exact (pairPenalty_eq_zero_iff.mp h0).1 heq
    · rintro ⟨s, hs, e1, he1, e2, he2, hne, hle⟩
      have hp := ((hkey s).mp (h _ (List.mem_range.mpr hs))).1
      have h0 := List.Pairwise.forall
        (fun a b hab => pairPenalty_zero_symm hab) hp he1 he2 hne
      exact (pairPenalty_eq_zero_iff.mp h0).2 hle
    · rintro ⟨s, hs, d, hd, hcnt⟩
      have h2 := ((hkey s).mp (h _ (List.mem_range.mpr hs))).2 d hd
      omega
  · rintro ⟨hc, hg, hd⟩ s hsmem
    have hs := List.mem_range.mp hsmem
    refine (hkey s).mpr ⟨?_, ?_⟩
    · refine (hnd s).pairwise_of_forall_ne ?_
      intro a ha b hb hab
      rw [pairPenalty_eq_zero_iff]
      exact ⟨fun heq => hc ⟨s, hs, a, ha, b, hb, hab, heq⟩,
        fun hle => hg ⟨s, hs, a, ha, b, hb, hab, hle⟩⟩
    · intro d hd'
      by_contra hgt
      push_neg at hgt
      exact hd ⟨s, hs, d, hd', hgt⟩

lemma turnaroundTerm_nonneg (En Rn : ℕ) (ra ta : ℕ → ℕ) :
    0 ≤ turnaroundTerm En Rn ra ta := by
  apply List.sum_nonneg
  intro y hy
  obtain ⟨r, _, rfl⟩ := List.mem_map.mp hy
  exact adjPen_nonneg _

/-- The turnaround term vanishes iff no two distinct exams in a common
room are within the turnaround gap (room entries must be in range for the
per-room buckets to cover all exams). -/
lemma turnaroundTerm_eq_zero_iff (En Rn : ℕ) (ra ta : ℕ → ℕ)
    (hra : ∀ e, e < En → ra e < Rn) :
    turnaroundTerm En Rn ra ta = 0 ↔ ¬TurnaroundViol En ra ta := by
  unfold turnaroundTerm
  rw [sum_map_int_eq_zero_iff (fun r _ => adjPen_nonneg _)]
  have hsymm : ∀ {x y : ℕ}, ¬(|(x : ℤ) - (y : ℤ)| ≤ TURNAROUND_GAP) →
      ¬(|(y : ℤ) - (x : ℤ)| ≤ TURNAROUND_GAP) := by
    intro x y h hle
    rw [abs_sub_comm] at hle
    exact h hle
  have hkey : ∀ r, (adjPen (List.insertionSort (· ≤ ·) (roomTimes En ra ta r)) = 0) ↔
      ∀ e1 ∈ (List.range En).filter (fun e => ra e == r),
        ∀ e2 ∈ (List.range En).filter (fun e => ra e == r),
          e1 ≠ e2 → ¬(|(ta e1 : ℤ) - (ta e2 : ℤ)| ≤ TURNAROUND_GAP) := by
    intro r
    rw [adjPen_sorted_eq_zero_iff (List.sorted_insertionSort _ _),
      List.Perm.pairwise_iff hsymm (List.perm_insertionSort _ _)]
    unfold roomTimes
    rw [List.pairwise_map]
    constructor
    · intro hp a ha b hb hab
      exact List.Pairwise.forall
        (fun x y hxy => hsymm hxy) hp ha hb hab
    · intro hall
      exact ((List.nodup_range En).filter _).pairwise_of_forall_ne hall
  constructor
  · intro h
    rintro ⟨e1, he1, e2, he2, hne, hroom, hgap⟩
    have hr : ra e1 < Rn := hra e1 he1
    have hm1 : e1 ∈ (List.range En).filter (fun e => ra e == ra e1) := by
      rw [List.mem_filter, List.mem_range]
      exact ⟨he1, by simp⟩
    have hm2 : e2 ∈ (List.range En).filter (fun e => ra e == ra e1) := by
      rw [List.mem_filter, List.mem_range]
      exact ⟨he2, by simp [hroom.symm]⟩
    exact (hkey (ra e1)).mp (h _ (List.mem_range.mpr hr)) e1 hm1 e2 hm2 hne hgap
  · intro hnv r _
    rw [hkey r]
    intro e1 he1 e2 he2 hne
    rw [List.mem_filter, List.mem_range] at he1 he2
    have hr1 : ra e1 = r := by simpa using he1.2
    have hr2 : ra e2 = r := by simpa using he2.2
    intro hgap
    exact hnv ⟨e1, he1.1, e2, he2.1, hne, hr1.trans hr2.symm, hgap⟩

lemma largeTerm_nonneg (En Tn : ℕ) (sz : ℕ → ℕ) (ta : ℕ → ℕ) :
    0 ≤ largeTerm En Tn sz ta := by
  apply List.sum_nonneg
  intro y hy
  obtain ⟨e, _, rfl⟩ := List.mem_map.mp hy
  exact ite_weight_nonneg _ (by norm_num [W_LAST_SLOT])

lemma largeTerm_eq_zero_iff (En Tn : ℕ) (sz : ℕ → ℕ) (ta : ℕ → ℕ) :
    largeTerm En Tn sz ta = 0 ↔ ¬LargeLastViol En Tn sz ta := by
  unfold largeTerm LargeLastViol
  rw [sum_map_int_eq_zero_iff
    (fun e _ => ite_weight_nonneg _ (by norm_num [W_LAST_SLOT]))]
  constructor
  · intro h
    rintro ⟨e, he, hlg, hmem⟩
    have h0 := h e (List.mem_range.mpr he)
    rw [if_pos ⟨hlg, hmem⟩] at h0
    norm_num [W_LAST_SLOT] at h0
  · intro hnv e he
    rw [if_neg (fun hc => hnv ⟨e, List.mem_range.mp he, hc.1, hc.2⟩)]

lemma invigEntry_nonneg (d : ℤ) :
    0 ≤ if EXAMINER_CAPACITY < d then W_INVIG * (d - EXAMINER_CAPACITY) else 0 := by
  split_ifs with h
  · have h0 : (0 : ℤ) ≤ d - EXAMINER_CAPACITY := by
      unfold EXAMINER_CAPACITY at h ⊢
      linarith
    exact mul_nonneg (by norm_num [W_INVIG]) h0
  · exact le_refl 0

lemma invigTerm_nonneg (En Tn : ℕ) (sz : ℕ → ℕ) (ta : ℕ → ℕ) :
    0 ≤ invigTerm En Tn sz ta := by
  apply List.sum_nonneg
  intro y hy
  obtain ⟨t, _, rfl⟩ := List.mem_map.mp hy
  exact invigEntry_nonneg _

lemma invigTerm_eq_zero_iff (En Tn : ℕ) (sz : ℕ → ℕ) (ta : ℕ → ℕ) :
    invigTerm En Tn sz ta = 0 ↔ ¬InvigViol En Tn sz ta := by
  unfold invigTerm InvigViol
  rw [sum_map_int_eq_zero_iff (fun t _ => invigEntry_nonneg _)]
  constructor
  · intro h
    rintro ⟨t, ht, hgt⟩
    have h0 := h t (List.mem_range.mpr ht)
    rw [if_pos hgt] at h0
    rcases mul_eq_zero.mp h0 with h1 | h1
    · norm_num [W_INVIG] at h1
    · unfold EXAMINER_CAPACITY at hgt h1
      linarith
  · intro hnv t ht
    rw [if_neg (fun hc => hnv ⟨t, List.mem_range.mp ht, hc⟩)]

lemma insertAbsent_nodup {l : List ℕ} (x : ℕ) (h : l.Nodup) :
    (insertAbsent l x).Nodup := by
  unfold insertAbsent
  split_ifs with hmem
  · exact h
  · rw [List.nodup_append]
    exact ⟨h, List.nodup_singleton x,
      fun a ha hax => hmem (List.mem_singleton.mp hax ▸ ha)⟩

lemma ebsStep_nodup (E S : ℤ) (s : ℕ) (acc : List ℕ) (p : ℤ × ℤ)
    (h : acc.Nodup) : (ebsStep E S s acc p).Nodup := by
  unfold ebsStep
  split_ifs with hc
  · exact insertAbsent_nodup _ h
  · exact h

/-- The per-student exam list is duplicate-free, as Python sets are. -/
lemma examsByStudent_nodup (E S : ℤ) (pairs : List (ℤ × ℤ)) (s : ℕ) :
    (examsByStudent E S pairs s).Nodup := by
  unfold examsByStudent
  have h : ∀ acc : List ℕ, acc.Nodup → (pairs.foldl (ebsStep E S s) acc).Nodup := by
    induction pairs with
    | nil => exact fun acc h => h
    | cons p l ih =>
      intro acc h
      simp only [List.foldl_cons]
      exact ih _ (ebsStep_nodup E S s acc p h)
  exact h [] List.nodup_nil

lemma cost_nonneg (En Rn Tn Sn : ℕ) (ebs : ℕ → List ℕ) (sz : ℕ → ℕ)
    (ra ta : ℕ → ℕ) : 0 ≤ cost En Rn Tn Sn ebs sz ra ta := by
  unfold cost
  have h1 := roomDoubleTerm_nonneg En ra ta
  have h2 := studentTerm_nonneg Sn ebs ta
  have h3 := turnaroundTerm_nonneg En Rn ra ta
  have h4 := largeTerm_nonneg En Tn sz ta
  have h5 := invigTerm_nonneg En Tn sz ta
  linarith

/-- The cost vanishes iff none of the seven violation classes occurs. -/
lemma cost_eq_zero_iff (En Rn Tn Sn : ℕ) (ebs : ℕ → List ℕ) (sz : ℕ → ℕ)
    (ra ta : ℕ → ℕ) (hra : ∀ e, e < En → ra e < Rn)
    (hnd : ∀ s, (ebs s).Nodup) :
    cost En Rn Tn Sn ebs sz ra ta = 0 ↔
      ¬RoomDoubleViol En ra ta ∧ ¬ClashViol Sn ebs ta ∧ ¬MinGapViol Sn ebs ta ∧
        ¬DayCapViol Sn ebs ta ∧ ¬TurnaroundViol En ra ta ∧
        ¬LargeLastViol En Tn sz ta ∧ ¬InvigViol En Tn sz ta := by
  unfold cost
  have h1 := roomDoubleTerm_nonneg En ra ta
  have h2 := studentTerm_nonneg Sn ebs ta
  have h3 := turnaroundTerm_nonneg En Rn ra ta
  have h4 := largeTerm_nonneg En Tn sz ta
  have h5 := invigTerm_nonneg En Tn sz ta
  rw [add_eq_zero_iff_of_nonneg (by linarith) h5,
    add_eq_zero_iff_of_nonneg (by linarith) h4,
    add_eq_zero_iff_of_nonneg (by linarith) h3,
    add_eq_zero_iff_of_nonneg h1 h2,
    roomDoubleTerm_eq_zero_iff, studentTerm_eq_zero_iff Sn ebs ta hnd,
    turnaroundTerm_eq_zero_iff En Rn ra ta hra, largeTerm_eq_zero_iff,
    invigTerm_eq_zero_iff]
  tauto

/-- C1 — For every instance and every complete assignment whose entries are
in range, the cost is a non-negative integer, and it is zero iff none of the
seven constraint classes (room double-booking, student same-slot clash,
student minimum gap, daily overload, room turnaround, large-exam last-slot,
invigilator overcapacity) is violated. -/
theorem cost_nonneg_zero_iff_no_violation (inst : Instance) (ra ta : ℕ → ℕ)
    (hra : ∀ e, e < (ofInstance inst).En → ra e < (ofInstance inst).Rn)
    (_hta : ∀ e, e < (ofInstance inst).En → ta e < (ofInstance inst).Tn) :
    0 ≤ (ofInstance inst).cost ra ta ∧
      ((ofInstance inst).cost ra ta = 0 ↔
        ¬RoomDoubleViol (ofInstance inst).En ra ta ∧
          ¬ClashViol (ofInstance inst).Sn (ofInstance inst).ebs ta ∧
          ¬MinGapViol (ofInstance inst).Sn (ofInstance inst).ebs ta ∧
          ¬DayCapViol (ofInstance inst).Sn (ofInstance inst).ebs ta ∧
          ¬TurnaroundViol (ofInstance inst).En ra ta ∧
          ¬LargeLastViol (ofInstance inst).En (ofInstance inst).Tn
            (ofInstance inst).sz ta ∧
          ¬InvigViol (ofInstance inst).En (ofInstance inst).Tn
            (ofInstance inst).sz ta) :=
  ⟨cost_nonneg (ofInstance inst).En (ofInstance inst).Rn (ofInstance inst).Tn
      (ofInstance inst).Sn (ofInstance inst).ebs (ofInstance inst).sz ra ta,
    cost_eq_zero_iff (ofInstance inst).En (ofInstance inst).Rn
      (ofInstance inst).Tn (ofInstance inst).Sn (ofInstance inst).ebs
      (ofInstance inst).sz ra ta hra
      (fun s => examsByStudent_nodup _ _ _ s)⟩

/-- Witness for `cost_nonneg_zero_iff_no_violation` on `inst1` with the
all-zero assignment. -/
theorem cost_nonneg_zero_iff_no_violation_witness :
    (∀ e, e < (ofInstance inst1).En →
      ((fun _ => 0) : ℕ → ℕ) e < (ofInstance inst1).Rn) ∧
      (∀ e, e < (ofInstance inst1).En →
        ((fun _ => 0) : ℕ → ℕ) e < (ofInstance inst1).Tn) ∧
      (0 ≤ (ofInstance inst1).cost (fun _ => 0) (fun _ => 0) ∧
        ((ofInstance inst1).cost (fun _ => 0) (fun _ => 0) = 0 ↔
          ¬RoomDoubleViol (ofInstance inst1).En (fun _ => 0) (fun _ => 0) ∧
            ¬ClashViol (ofInstance inst1).Sn (ofInstance inst1).ebs (fun _ => 0) ∧
            ¬MinGapViol (ofInstance inst1).Sn (ofInstance inst1).ebs (fun _ => 0) ∧
            ¬DayCapViol (ofInstance inst1).Sn (ofInstance inst1).ebs (fun _ => 0) ∧
            ¬TurnaroundViol (ofInstance inst1).En (fun _ => 0) (fun _ => 0) ∧
            ¬LargeLastViol (ofInstance inst1).En (ofInstance inst1).Tn
              (ofInstance inst1).sz (fun _ => 0) ∧
            ¬InvigViol (ofInstance inst1).En (ofInstance inst1).Tn
              (ofInstance inst1).sz (fun _ => 0))) :=
  ⟨by decide, by decide,
    cost_nonneg_zero_iff_no_violation inst1 (fun _ => 0) (fun _ => 0)
      (by decide) (by decide)⟩

end CW1
